import Mathlib

/-!
Verification of the peloton storage / tile-materialization core.

Shallow embedding of:
  * src/src/backend/executor/materialization_executor.cpp
    (MaterializationExecutor::DInit, GenerateTileToColMap, MaterializeByTiles,
     BuildIdentityMapping, Physify, DExecute)
  * src/src/executor/logical_schema.h (LogicalSchema)
  * src/src/storage/table.h (Table, GetTileGroup, NumTileGroups, and the
    declared mutation operations whose bodies are modelled from the spec)

Machine integers (oid_t, id_t) are modelled as Nat; C++ unordered_map
iteration order is made explicit by passing the iteration sequence as a
list parameter; assert(...) in code that aborts rather than returning is
modelled by an Option-valued result where none stands for the failed
assertion.
-/

namespace Peloton

/-- Model of peloton::Value: a database cell value, possibly null. -/
structure Value where
  isNull : Bool
  data : Int
deriving DecidableEq, Repr

/-- Default cell content of freshly allocated physical tile storage. -/
def Value.defaultVal : Value := ⟨true, 0⟩

/-- Model of storage::Tile: a column-addressable physical tile with a fixed
tuple capacity (rows) and column count (cols); data is addressed by
(tuple slot, column). -/
@[ext]
structure Tile where
  rows : Nat
  cols : Nat
  data : Nat → Nat → Value

/-- Tile::GetValue(slot, col). -/
def Tile.getValue (t : Tile) (slot col : Nat) : Value := t.data slot col

/-- Tile::SetValue(value, slot, col): point update of the backing storage. -/
def Tile.setValue (t : Tile) (v : Value) (slot col : Nat) : Tile :=
  { t with data := fun i j => if i = slot ∧ j = col then v else t.data i j }

/-- Model of storage::TileFactory::GetTempTile(schema, tuple_count): a fresh
tile shaped to the output schema (column count) and sized to the given
tuple count, with default-initialized storage. -/
def GetTempTile (cols tuples : Nat) : Tile :=
  { rows := tuples, cols := cols, data := fun _ _ => Value.defaultVal }

/-- Placeholder tile used as the default of out-of-range lookups. -/
def emptyTile : Tile := { rows := 0, cols := 0, data := fun _ _ => Value.defaultVal }

/-- Model of executor::LogicalSchema (src/src/executor/logical_schema.h):
per logical column, the owning base tile (identified by its index into the
logical tile's tile store, which models C++ pointer identity), the origin
column id in that base tile, and a valid bit. -/
structure LogicalSchema where
  baseTiles : List Nat
  originColumns : List Nat
  validBits : List Bool

/-- LogicalSchema::NumCols: includes invalidated columns. -/
def LogicalSchema.NumCols (s : LogicalSchema) : Nat := s.baseTiles.length

/-- Model of executor::LogicalTile, per the contract in the spec (the class
body is not under src/): a view over physical tiles held in tileStore, a
LogicalSchema mapping each logical column to (base tile, origin column),
the ordered sequence of currently selected slot ids (iteration yields
exactly this sequence), and the own-base-tile ownership flag. -/
structure LogicalTile where
  tileStore : List Tile
  schema : LogicalSchema
  selectedRows : List Nat
  ownBaseTile : Bool

/-- LogicalTile::GetBaseTile(col), as the identity of the owning tile. -/
def LogicalTile.GetBaseTileId (lt : LogicalTile) (col : Nat) : Nat :=
  lt.schema.baseTiles.getD col 0

/-- LogicalTile::GetOriginColumnId(col). -/
def LogicalTile.GetOriginColumnId (lt : LogicalTile) (col : Nat) : Nat :=
  lt.schema.originColumns.getD col 0

/-- LogicalTile::GetValue(tuple_id, col): dereference through the column's
base tile at the column's origin column. -/
def LogicalTile.GetValue (lt : LogicalTile) (tupleId col : Nat) : Value :=
  (lt.tileStore.getD (lt.GetBaseTileId col) emptyTile).getValue tupleId
    (lt.GetOriginColumnId col)

/-- LogicalTile::GetTupleCount: the number of selected (visible) rows, which
is exactly the number of rows iteration yields. -/
def LogicalTile.GetTupleCount (lt : LogicalTile) : Nat := lt.selectedRows.length

/-- Modelled from the spec: LogicalTile::GetPhysicalSchema is not under
src/; section 4.2 step 1 synthesizes an identity mapping over the
inferred schema's column count, and section 4.1 states that NumCols
includes invalidated columns. -/
def LogicalTile.physicalColumnCount (lt : LogicalTile) : Nat := lt.schema.NumCols

/-- Lookup in the old-to-new column unordered_map, modelled as an
association list whose order is the map's (arbitrary) iteration order. -/
def mapLookup (m : List (Nat × Nat)) (old : Nat) : Option Nat :=
  match m with
  | [] => none
  | (k, v) :: rest => if k = old then some v else mapLookup rest old

/-- One iteration of the inner copy loop of
MaterializationExecutor::MaterializeByTiles: copy the source value of
column oldCol at the selected row into the destination at the running
new_tuple_id, then advance new_tuple_id. -/
def copyStep (source : LogicalTile) (oldCol newCol : Nat)
    (acc : Tile × Nat) (oldTupleId : Nat) : Tile × Nat :=
  (Tile.setValue acc.1 (source.GetValue oldTupleId oldCol) acc.2 newCol, acc.2 + 1)

/-- The per-column copy loop of MaterializeByTiles: walk the source tile's
selected rows in order, with new_tuple_id starting at 0. -/
def materializeColumn (source : LogicalTile) (oldCol newCol : Nat) (dest : Tile) : Tile :=
  (source.selectedRows.foldl (copyStep source oldCol newCol) (dest, 0)).1

/-- Processing of one old column inside MaterializeByTiles: look up its new
column in the old-to-new map (the code asserts the lookup succeeds; a
failed lookup is modelled as a skip) and run the copy loop. -/
def materializeOneCol (source : LogicalTile) (m : List (Nat × Nat))
    (dest : Tile) (oldCol : Nat) : Tile :=
  match mapLookup m oldCol with
  | some newCol => materializeColumn source oldCol newCol dest
  | none => dest

/-- MaterializationExecutor::MaterializeByTiles: iterate the per-base-tile
buckets (the unordered_map from base tile to its columns, with its
iteration order made explicit as a list), and inside each bucket iterate
its columns, copying each into the destination tile. -/
def MaterializeByTiles (source : LogicalTile) (m : List (Nat × Nat))
    (tileToCols : List (Nat × List Nat)) (dest : Tile) : Tile :=
  tileToCols.foldl (fun d kv => kv.2.foldl (materializeOneCol source m) d) dest

/-- Insertion of one column into the bucket of its base tile, per
GenerateTileToColMap: the column is appended to the bucket's vector. -/
def addToBucket (buckets : List (Nat × List Nat)) (tid col : Nat) :
    List (Nat × List Nat) :=
  match buckets with
  | [] => [(tid, [col])]
  | (t, cs) :: rest =>
    if t = tid then (t, cs ++ [col]) :: rest else (t, cs) :: addToBucket rest tid col

/-- MaterializationExecutor::GenerateTileToColMap: bucket the old columns of
the old-to-new map by the base tile owning each column in the source
logical tile (a canonical realization of the unordered_map; theorems about
bucket-order independence range over arbitrary bucket lists). -/
def GenerateTileToColMap (m : List (Nat × Nat)) (source : LogicalTile) :
    List (Nat × List Nat) :=
  m.foldl (fun bs kv => addToBucket bs (source.GetBaseTileId kv.1) kv.1) []

/-- MaterializationExecutor::BuildIdentityMapping: column i maps to i for
every i below the schema's column count. -/
def BuildIdentityMapping (columnCount : Nat) : List (Nat × Nat) :=
  (List.range columnCount).map (fun c => (c, c))

/-- The flattened sequence of old columns processed by MaterializeByTiles. -/
def bucketOlds (bs : List (Nat × List Nat)) : List Nat := (bs.map Prod.snd).flatten

/-- The last old column in the processing sequence whose mapped new column
is j (the head of the list is processed first, so later elements win). -/
def lastWriterOf (seq : List Nat) (m : List (Nat × Nat)) (j : Nat) : Option Nat :=
  match seq with
  | [] => none
  | old :: rest =>
    match lastWriterOf rest m j with
    | some o => some o
    | none => if mapLookup m old = some j then some old else none

theorem setValue_getValue (t : Tile) (v : Value) (s c i j : Nat) :
    (t.setValue v s c).getValue i j = if i = s ∧ j = c then v else t.getValue i j := rfl

theorem copyLoop_getValue (source : LogicalTile) (oldCol newCol : Nat)
    (l : List Nat) (d : Tile) (k i j : Nat) :
    ((l.foldl (copyStep source oldCol newCol) (d, k)).1).getValue i j =
      if j = newCol ∧ k ≤ i ∧ i < k + l.length
      then source.GetValue (l.getD (i - k) 0) oldCol
      else d.getValue i j := by
  induction l generalizing d k with
  | nil =>
    show d.getValue i j = _
    rw [if_neg (by simp only [List.length_nil]; omega)]
  | cons r rest ih =>
    have hlen : (r :: rest).length = rest.length + 1 := List.length_cons r rest
    rw [List.foldl_cons]
    show ((rest.foldl (copyStep source oldCol newCol)
        (Tile.setValue d (source.GetValue r oldCol) k newCol, k + 1)).1).getValue i j = _
    rw [ih]
    by_cases hj : j = newCol
    · subst hj
      by_cases hik : i = k
      · subst hik
        rw [if_neg (by omega), if_pos ⟨rfl, by omega, by omega⟩]
        rw [setValue_getValue, if_pos ⟨rfl, rfl⟩]
        simp
      · by_cases hlo : k + 1 ≤ i ∧ i < k + 1 + rest.length
        · rw [if_pos ⟨rfl, hlo⟩, if_pos ⟨rfl, by omega, by omega⟩]
          have hd : i - k = (i - (k + 1)) + 1 := by omega
          rw [hd]
          simp [List.getD_cons_succ]
        · rw [if_neg (by tauto), if_neg (by omega)]
          rw [setValue_getValue, if_neg (by tauto)]
    · rw [if_neg (by tauto), if_neg (by tauto)]
      rw [setValue_getValue, if_neg (by tauto)]

theorem materializeColumn_getValue (source : LogicalTile) (oldCol newCol : Nat)
    (d : Tile) (i j : Nat) :
    (materializeColumn source oldCol newCol d).getValue i j =
      if j = newCol ∧ i < source.GetTupleCount
      then source.GetValue (source.selectedRows.getD i 0) oldCol
      else d.getValue i j := by
  unfold materializeColumn
  rw [copyLoop_getValue]
  simp [LogicalTile.GetTupleCount]

theorem materializeByTiles_eq_flat (source : LogicalTile) (m : List (Nat × Nat))
    (bs : List (Nat × List Nat)) (d : Tile) :
    MaterializeByTiles source m bs d =
      (bucketOlds bs).foldl (materializeOneCol source m) d := by
  induction bs generalizing d with
  | nil => rfl
  | cons b rest ih =>
    unfold MaterializeByTiles bucketOlds
    rw [List.foldl_cons, List.map_cons, List.flatten_cons, List.foldl_append]
    exact ih _

theorem materializeOneCol_getValue (source : LogicalTile) (m : List (Nat × Nat))
    (d : Tile) (oldCol i j : Nat) :
    (materializeOneCol source m d oldCol).getValue i j =
      match mapLookup m oldCol with
      | some newCol =>
        if j = newCol ∧ i < source.GetTupleCount
        then source.GetValue (source.selectedRows.getD i 0) oldCol
        else d.getValue i j
      | none => d.getValue i j := by
  unfold materializeOneCol
  cases mapLookup m oldCol with
  | none => rfl
  | some newCol => exact materializeColumn_getValue source oldCol newCol d i j

theorem mapLookup_cons (k v a : Nat) (rest : List (Nat × Nat)) :
    mapLookup ((k, v) :: rest) a = if k = a then some v else mapLookup rest a := rfl

theorem lastWriterOf_cons (x : Nat) (rest : List Nat) (m : List (Nat × Nat)) (j : Nat) :
    lastWriterOf (x :: rest) m j =
      match lastWriterOf rest m j with
      | some o => some o
      | none => if mapLookup m x = some j then some x else none := rfl

theorem foldCols_getValue (source : LogicalTile) (m : List (Nat × Nat))
    (seq : List Nat) (d : Tile) (i j : Nat) :
    (seq.foldl (materializeOneCol source m) d).getValue i j =
      match lastWriterOf seq m j with
      | some old =>
        if i < source.GetTupleCount
        then source.GetValue (source.selectedRows.getD i 0) old
        else d.getValue i j
      | none => d.getValue i j := by
  induction seq generalizing d with
  | nil => rfl
  | cons x rest ih =>
    rw [List.foldl_cons, ih, lastWriterOf_cons]
    cases hrest : lastWriterOf rest m j with
    | some o =>
      by_cases hi : i < source.GetTupleCount
      · simp [hi]
      · rw [materializeOneCol_getValue]
        cases hl : mapLookup m x with
        | none => simp [hi]
        | some new => simp [hi]
    | none =>
      rw [materializeOneCol_getValue]
      cases hl : mapLookup m x with
      | none => simp [hl]
      | some new =>
        by_cases hj : new = j
        · subst hj
          by_cases hi : i < source.GetTupleCount
          · simp [hl, hi]
          · simp [hl, hi]
        · have hsj : ¬ ((some new : Option Nat) = some j) := by
            intro hc
            exact hj (Option.some.inj hc)
          have hand : ¬ (j = new ∧ i < source.GetTupleCount) := by
            intro hc
            exact hj hc.1.symm
          simp [hand, hsj]

/-- mapLookup only returns pairs present in the map. -/
theorem mapLookup_mem (m : List (Nat × Nat)) (a b : Nat)
    (h : mapLookup m a = some b) : (a, b) ∈ m := by
  induction m with
  | nil => simp [mapLookup] at h
  | cons kv rest ih =>
    obtain ⟨k, v⟩ := kv
    rw [mapLookup_cons] at h
    by_cases hk : k = a
    · rw [if_pos hk] at h
      injection h with hv
      subst hk
      subst hv
      exact List.mem_cons_self _ _
    · rw [if_neg hk] at h
      exact List.mem_cons_of_mem _ (ih h)

/-- With duplicate-free keys (an unordered_map invariant), membership
determines the lookup result. -/
theorem mapLookup_of_mem (m : List (Nat × Nat)) (a b : Nat)
    (hk : (m.map Prod.fst).Nodup) (h : (a, b) ∈ m) : mapLookup m a = some b := by
  induction m with
  | nil => simp at h
  | cons kv rest ih =>
    obtain ⟨k, v⟩ := kv
    rw [List.map_cons, List.nodup_cons] at hk
    rw [mapLookup_cons]
    rcases List.mem_cons.mp h with heq | hmem
    · injection heq with h1 h2
      rw [if_pos h1.symm, h2]
    · by_cases hka : k = a
      · exfalso
        apply hk.1
        subst hka
        exact List.mem_map.mpr ⟨(k, b), hmem, rfl⟩
      · rw [if_neg hka]
        exact ih hk.2 hmem

/-- With duplicate-free mapped-to values, a new column determines the old
column mapped onto it. -/
theorem map_value_inj (m : List (Nat × Nat)) (a b c : Nat)
    (hv : (m.map Prod.snd).Nodup) (h1 : (a, b) ∈ m) (h2 : (c, b) ∈ m) : a = c := by
  induction m with
  | nil => simp at h1
  | cons kv rest ih =>
    obtain ⟨k, v⟩ := kv
    rw [List.map_cons, List.nodup_cons] at hv
    rcases List.mem_cons.mp h1 with he1 | hm1 <;> rcases List.mem_cons.mp h2 with he2 | hm2
    · injection he1 with ha hb
      injection he2 with hc hd
      rw [ha, hc]
    · exfalso
      injection he1 with ha hb
      apply hv.1
      exact List.mem_map.mpr ⟨(c, b), hm2, by rw [hb]⟩
    · exfalso
      injection he2 with hc hd
      apply hv.1
      exact List.mem_map.mpr ⟨(a, b), hm1, by rw [hd]⟩
    · exact ih hv.2 hm1 hm2

/-- Inversion for lastWriterOf: the reported writer is a genuine map entry. -/
theorem lastWriterOf_lookup (seq : List Nat) (m : List (Nat × Nat)) (j o : Nat)
    (h : lastWriterOf seq m j = some o) : mapLookup m o = some j := by
  induction seq with
  | nil => simp [lastWriterOf] at h
  | cons x rest ih =>
    rw [lastWriterOf_cons] at h
    cases hrest : lastWriterOf rest m j with
    | some o2 =>
      rw [hrest] at h
      simp only [] at h
      injection h with ho
      subst ho
      exact ih hrest
    | none =>
      rw [hrest] at h
      simp only [] at h
      by_cases hc : mapLookup m x = some j
      · rw [if_pos hc] at h
        injection h with ho
        subst ho
        exact hc
      · rw [if_neg hc] at h
        cases h

/-- With duplicate-free keys and values, any occurrence of the mapped old
column in the processing sequence makes it the last writer of its new
column. -/
theorem lastWriterOf_eq_some (seq : List Nat) (m : List (Nat × Nat)) (old j : Nat)
    (hk : (m.map Prod.fst).Nodup) (hv : (m.map Prod.snd).Nodup)
    (hmem : (old, j) ∈ m) (hseq : old ∈ seq) :
    lastWriterOf seq m j = some old := by
  induction seq with
  | nil => simp at hseq
  | cons x rest ih =>
    rw [lastWriterOf_cons]
    cases hrest : lastWriterOf rest m j with
    | some o =>
      have ho : (o, j) ∈ m := mapLookup_mem m o j (lastWriterOf_lookup rest m j o hrest)
      rw [map_value_inj m old j o hv hmem ho]
    | none =>
      rcases List.mem_cons.mp hseq with hx | hr
      · subst hx
        rw [if_pos (mapLookup_of_mem m old j hk hmem)]
      · rw [ih hr] at hrest
        cases hrest

/-- A new column onto which no entry maps is never written. -/
theorem lastWriterOf_eq_none (seq : List Nat) (m : List (Nat × Nat)) (j : Nat)
    (h : ∀ p ∈ m, p.2 ≠ j) : lastWriterOf seq m j = none := by
  cases ho : lastWriterOf seq m j with
  | none => rfl
  | some o =>
    exfalso
    exact h (o, j) (mapLookup_mem m o j (lastWriterOf_lookup seq m j o ho)) rfl

/-- If some processed old column maps onto j, then j has a last writer. -/
theorem lastWriterOf_isSome (seq : List Nat) (m : List (Nat × Nat)) (old j : Nat)
    (hseq : old ∈ seq) (hl : mapLookup m old = some j) :
    ∃ o, lastWriterOf seq m j = some o := by
  induction seq with
  | nil => simp at hseq
  | cons x rest ih =>
    rw [lastWriterOf_cons]
    cases hrest : lastWriterOf rest m j with
    | some o => exact ⟨o, rfl⟩
    | none =>
      rcases List.mem_cons.mp hseq with hx | hr
      · subst hx
        rw [if_pos hl]
        exact ⟨old, rfl⟩
      · obtain ⟨o, ho⟩ := ih hr
        rw [ho] at hrest
        cases hrest

theorem materializeByTiles_getValue (source : LogicalTile) (m : List (Nat × Nat))
    (bs : List (Nat × List Nat)) (d : Tile) (i j : Nat) :
    (MaterializeByTiles source m bs d).getValue i j =
      match lastWriterOf (bucketOlds bs) m j with
      | some old =>
        if i < source.GetTupleCount
        then source.GetValue (source.selectedRows.getD i 0) old
        else d.getValue i j
      | none => d.getValue i j := by
  rw [materializeByTiles_eq_flat]
  exact foldCols_getValue source m (bucketOlds bs) d i j

theorem copyLoop_shape (source : LogicalTile) (oldCol newCol : Nat)
    (l : List Nat) (d : Tile) (k : Nat) :
    ((l.foldl (copyStep source oldCol newCol) (d, k)).1).rows = d.rows ∧
      ((l.foldl (copyStep source oldCol newCol) (d, k)).1).cols = d.cols := by
  induction l generalizing d k with
  | nil => exact ⟨rfl, rfl⟩
  | cons r rest ih =>
    rw [List.foldl_cons]
    exact ih _ _

theorem materializeOneCol_shape (source : LogicalTile) (m : List (Nat × Nat))
    (d : Tile) (oldCol : Nat) :
    (materializeOneCol source m d oldCol).rows = d.rows ∧
      (materializeOneCol source m d oldCol).cols = d.cols := by
  unfold materializeOneCol
  cases mapLookup m oldCol with
  | none => exact ⟨rfl, rfl⟩
  | some newCol => exact copyLoop_shape source oldCol newCol source.selectedRows d 0

theorem foldCols_shape (source : LogicalTile) (m : List (Nat × Nat))
    (seq : List Nat) (d : Tile) :
    (seq.foldl (materializeOneCol source m) d).rows = d.rows ∧
      (seq.foldl (materializeOneCol source m) d).cols = d.cols := by
  induction seq generalizing d with
  | nil => exact ⟨rfl, rfl⟩
  | cons x rest ih =>
    rw [List.foldl_cons]
    obtain ⟨h1, h2⟩ := ih (materializeOneCol source m d x)
    obtain ⟨h3, h4⟩ := materializeOneCol_shape source m d x
    exact ⟨h1.trans h3, h2.trans h4⟩

theorem materializeByTiles_shape (source : LogicalTile) (m : List (Nat × Nat))
    (bs : List (Nat × List Nat)) (d : Tile) :
    (MaterializeByTiles source m bs d).rows = d.rows ∧
      (MaterializeByTiles source m bs d).cols = d.cols := by
  rw [materializeByTiles_eq_flat]
  exact foldCols_shape source m (bucketOlds bs) d

/-- Appending a column to its bucket only adds that column to the flattened
processing sequence, up to permutation. -/
theorem bucketOlds_addToBucket (bs : List (Nat × List Nat)) (tid col : Nat) :
    (bucketOlds (addToBucket bs tid col)).Perm (col :: bucketOlds bs) := by
  induction bs with
  | nil => simp [addToBucket, bucketOlds]
  | cons b rest ih =>
    obtain ⟨t, cs⟩ := b
    unfold addToBucket
    by_cases ht : t = tid
    · rw [if_pos ht]
      unfold bucketOlds
      simp only [List.map_cons, List.flatten_cons]
      have : cs ++ [col] ++ (rest.map Prod.snd).flatten =
          cs ++ ([col] ++ (rest.map Prod.snd).flatten) := by
        rw [List.append_assoc]
      rw [this]
      exact List.perm_middle
    · rw [if_neg ht]
      unfold bucketOlds at ih ⊢
      simp only [List.map_cons, List.flatten_cons]
      exact List.Perm.trans (List.Perm.append_left cs ih) List.perm_middle

/-- The flattened sequence of GenerateTileToColMap is a permutation of the
old columns of the mapping. -/
theorem bucketOlds_gen_aux (m : List (Nat × Nat)) (source : LogicalTile)
    (bs : List (Nat × List Nat)) :
    (bucketOlds (m.foldl
        (fun acc kv => addToBucket acc (source.GetBaseTileId kv.1) kv.1) bs)).Perm
      (bucketOlds bs ++ m.map Prod.fst) := by
  induction m generalizing bs with
  | nil => simp
  | cons kv rest ih =>
    rw [List.foldl_cons]
    refine List.Perm.trans (ih (addToBucket bs (source.GetBaseTileId kv.1) kv.1)) ?h2
    refine List.Perm.trans
      (List.Perm.append_right (rest.map Prod.fst) (bucketOlds_addToBucket bs _ kv.1)) ?h3
    rw [List.map_cons]
    exact List.perm_middle.symm

theorem bucketOlds_gen (m : List (Nat × Nat)) (source : LogicalTile) :
    (bucketOlds (GenerateTileToColMap m source)).Perm (m.map Prod.fst) := by
  have h := bucketOlds_gen_aux m source []
  simpa [bucketOlds] using h

/-- Model of planner::MaterializationNode: an optional output schema (here
just its column count; none models a null schema pointer), the old-to-new
column mapping, and the physify flag. -/
structure MaterializationNode where
  outputSchemaCols : Option Nat
  old_to_new_cols : List (Nat × Nat)
  physify_flag : Bool

/-- The mapping-resolution step of Physify (lines 138-156 of
materialization_executor.cpp): identity mapping over the source's inferred
schema when there is no plan node or the node carries no schema, otherwise
the node's schema and mapping. Returns (output column count, mapping). -/
def resolveMapping (node : Option MaterializationNode) (source : LogicalTile) :
    Nat × List (Nat × Nat) :=
  match node with
  | none =>
    (source.physicalColumnCount, BuildIdentityMapping source.physicalColumnCount)
  | some nd =>
    match nd.outputSchemaCols with
    | some cols => (cols, nd.old_to_new_cols)
    | none =>
      (source.physicalColumnCount, BuildIdentityMapping source.physicalColumnCount)

/-- Modelled from the spec: LogicalTileFactory::WrapTiles is not under src/;
section 4.2 step 5 wraps the destination physical tile as a new tile-owning
LogicalTile with an identity mapping over its own columns, all of whose
tuple slots are selected. -/
def WrapTiles (t : Tile) (own : Bool) : LogicalTile :=
  { tileStore := [t]
  , schema :=
      { baseTiles := List.replicate t.cols 0
      , originColumns := List.range t.cols
      , validBits := List.replicate t.cols true }
  , selectedRows := List.range t.rows
  , ownBaseTile := own }

/-- MaterializationExecutor::Physify: resolve the mapping, bucket it by base
tile, allocate a destination tile sized to the source's tuple count and
shaped to the output schema, materialize, and wrap the result as a
tile-owning logical tile. -/
def Physify (node : Option MaterializationNode) (source : LogicalTile) : LogicalTile :=
  let rm := resolveMapping node source
  let tileToCols := GenerateTileToColMap rm.2 source
  let destTile := MaterializeByTiles source rm.2 tileToCols
    (GetTempTile rm.1 source.GetTupleCount)
  WrapTiles destTile true

/-- The result of one Execute() pull from the child executor: either end of
stream, or a logical tile. -/
inductive ChildResult where
  | exhausted : ChildResult
  | tile : LogicalTile → ChildResult

/-- The physify flag consulted by DExecute: true by default when there is no
plan node, otherwise the node's flag. -/
def getPhysifyFlag (node : Option MaterializationNode) : Bool :=
  match node with
  | none => true
  | some nd => nd.physify_flag

/-- MaterializationExecutor::DExecute, as a function of the child's pull
result: none models returning false with no output tile; some models
returning true with exactly the held output tile. -/
def DExecute (node : Option MaterializationNode) (child : ChildResult) :
    Option LogicalTile :=
  match child with
  | .exhausted => none
  | .tile source =>
    if source.GetTupleCount = 0 then none
    else if getPhysifyFlag node then some (Physify node source)
    else some source

/-- MaterializationExecutor::DInit, as a function of the executor's child
count: the code asserts children_.size() == 1 and then returns true; the
failed assertion (abort, no return value) is modelled as none. -/
def DInit (numChildren : Nat) : Option Bool :=
  if numChildren = 1 then some true else none

/-- Model of ItemPointer: (tile group position, slot offset). -/
structure ItemPointer where
  block : Nat
  offset : Nat
deriving DecidableEq, Repr

/-- Model of storage::TileGroup as needed by the table claims: the slot
cursor (active tuple count) and the set of slots made visible by
CommitInsertedTuple. -/
structure TileGroup where
  activeTupleCount : Nat
  committedSlots : List Nat
deriving DecidableEq, Repr

/-- TileGroup::CommitInsertedTuple: stamp the visibility of a slot. -/
def CommitInsertedTuple (g : TileGroup) (slot : Nat) : TileGroup :=
  { g with committedSlots := slot :: g.committedSlots }

/-- Model of index::Index: uniqueness flag, key columns, and entries mapping
a key value vector to a tuple location. -/
structure Index where
  unique : Bool
  keyCols : List Nat
  entries : List (List Value × ItemPointer)
deriving DecidableEq, Repr

/-- Model of storage::Tuple: a schema-bound value vector. -/
structure Tuple where
  values : List Value
deriving DecidableEq, Repr

/-- Model of storage::Table (src/src/storage/table.h): schema nullability
flags, the configured tuples-per-tilegroup capacity (default 1000 in the
source, table.h line 157), the append-only tile group list, and the index
list. -/
structure Table where
  allowNull : List Bool
  tuplesPerTilegroup : Nat
  tileGroups : List TileGroup
  indexes : List Index
deriving DecidableEq, Repr

/-- Table::NumTileGroups (table.h lines 98-100). -/
def NumTileGroups (tb : Table) : Nat := tb.tileGroups.length

/-- Table::GetTileGroup (table.h lines 93-96): asserts the id is in range
and indexes into the group list; an out-of-range id fails the assertion
(modelled as none: the code returns no error value). -/
def GetTileGroup (tb : Table) (tile_group_id : Nat) : Option TileGroup :=
  if tile_group_id < tb.tileGroups.length
  then some (tb.tileGroups.getD tile_group_id ⟨0, []⟩)
  else none

/-- Modelled from the spec: the key projection handed to each index; the
body of Table::InsertTuple that builds index keys is not under src/. -/
def keyOf (idx : Index) (t : Tuple) : List Value :=
  idx.keyCols.map (fun c => t.values.getD c Value.defaultVal)

/-- Whether the index already holds an entry with the given key. -/
def indexHasKey (idx : Index) (key : List Value) : Bool :=
  idx.entries.any (fun e => decide (e.1 = key))

/-- Modelled from the spec: a single index insert; a unique index rejects a
key that already has a conflicting entry (section 4.4 step 3). -/
def indexTryInsert (idx : Index) (t : Tuple) (loc : ItemPointer) : Option Index :=
  if idx.unique ∧ indexHasKey idx (keyOf idx t)
  then none
  else some { idx with entries := idx.entries ++ [(keyOf idx t, loc)] }

/-- Modelled from the spec: DeleteInIndexes-style removal of the entries
registered under a given tuple location, used for rollback (section 4.4). -/
def removeLocation (idx : Index) (loc : ItemPointer) : Index :=
  { idx with entries := idx.entries.filter (fun e => decide (e.2 ≠ loc)) }

/-- Modelled from the spec: the traversal inside Table::TryInsertInIndexes
(declared at table.h line 122, body not under src/): insert into each index
in turn; on a unique-key failure, roll back the entries already inserted
for this tuple in the earlier indexes and report failure. -/
def tryInsertLoop (t : Tuple) (loc : ItemPointer)
    (done pending : List Index) : Bool × List Index :=
  match pending with
  | [] => (true, done)
  | idx :: rest =>
    match indexTryInsert idx t loc with
    | some idx2 => tryInsertLoop t loc (done ++ [idx2]) rest
    | none => (false, done.map (fun d => removeLocation d loc) ++ idx :: rest)

/-- Table::TryInsertInIndexes, modelled from the spec as above. -/
def TryInsertInIndexes (tb : Table) (t : Tuple) (loc : ItemPointer) :
    Bool × List Index :=
  tryInsertLoop t loc [] tb.indexes

/-- Modelled from the spec: Table::CheckNulls (declared at table.h line
127): the tuple passes iff every non-nullable column holds a non-null
value. -/
def CheckNulls (tb : Table) (t : Tuple) : Bool :=
  (List.zip tb.allowNull t.values).all (fun p => p.1 || !p.2.isNull)

/-- Whether the last tile group is missing or full, which triggers the
append of a fresh group (spec section 4.4 step 1). -/
def lastGroupFull (tb : Table) : Bool :=
  match tb.tileGroups.getLast? with
  | none => true
  | some g => decide (tb.tuplesPerTilegroup ≤ g.activeTupleCount)

/-- Table::AddDefaultTileGroup (declared at table.h line 89): append a
fresh, empty tile group of the configured capacity. -/
def AddDefaultTileGroup (tb : Table) : Table :=
  { tb with tileGroups := tb.tileGroups ++ [⟨0, []⟩] }

/-- Modelled from the spec: the slot-allocation step of Table::InsertTuple
(section 4.4 steps 1-2): append a group when the last one is full (or the
table has none), then reserve the next slot of the last group; returns the
updated table and the new ItemPointer. -/
def allocateSlot (tb : Table) : Table × ItemPointer :=
  let tb1 := if lastGroupFull tb then AddDefaultTileGroup tb else tb
  let gIdx := tb1.tileGroups.length - 1
  let g := tb1.tileGroups.getD gIdx ⟨0, []⟩
  ({ tb1 with
      tileGroups := tb1.tileGroups.set gIdx ⟨g.activeTupleCount + 1, g.committedSlots⟩ },
   ⟨gIdx, g.activeTupleCount⟩)

/-- Result of Table::InsertTuple; there is no table-full failure case,
since a full tile group is handled transparently by appending a new one. -/
inductive InsertResult where
  | ok : ItemPointer → Table → InsertResult
  | nullViolation : Table → InsertResult
  | indexViolation : Table → InsertResult
deriving DecidableEq, Repr

/-- Modelled from the spec: Table::InsertTuple (declared at table.h line
103, body not under src/): check nulls before any slot allocation, allocate
a slot (appending a group when needed), then try the index inserts with
rollback on failure; the slot is never committed by this operation. -/
def InsertTuple (tb : Table) (t : Tuple) : InsertResult :=
  if CheckNulls tb t = false then .nullViolation tb
  else
    let p := allocateSlot tb
    match TryInsertInIndexes p.1 t p.2 with
    | (true, idxs) =>
      .ok p.2 ⟨p.1.allowNull, p.1.tuplesPerTilegroup, p.1.tileGroups, idxs⟩
    | (false, idxs) =>
      .indexViolation ⟨p.1.allowNull, p.1.tuplesPerTilegroup, p.1.tileGroups, idxs⟩

/-- A slot is visible iff CommitInsertedTuple has stamped it. -/
def slotVisible (tb : Table) (loc : ItemPointer) : Bool :=
  decide (loc.offset ∈ (tb.tileGroups.getD loc.block ⟨0, []⟩).committedSlots)

/-- Tuple number k of the sequential-insert scenario: four non-null values
for the four-column (int, int, double, varchar) schema. -/
def sampleTuple (k : Nat) : Tuple :=
  ⟨[⟨false, Int.ofNat k⟩, ⟨false, Int.ofNat (k + 1)⟩, ⟨false, 0⟩, ⟨false, 1⟩]⟩

/-- The scenario table: four non-nullable columns, tile group capacity 1000
(the source default tuples_per_tilegroup), no indexes, no groups yet. -/
def scenarioTable : Table := ⟨[false, false, false, false], 1000, [], []⟩

/-- Insert the first k sample tuples sequentially; none if any insert
reports an error. -/
def insertManyOk (tb : Table) : Nat → Option Table
  | 0 => some tb
  | k + 1 =>
    match insertManyOk tb k with
    | none => none
    | some tbk =>
      match InsertTuple tbk (sampleTuple k) with
      | .ok _ tb2 => some tb2
      | .nullViolation _ => none
      | .indexViolation _ => none

theorem identity_fst (c : Nat) :
    (BuildIdentityMapping c).map Prod.fst = List.range c := by
  unfold BuildIdentityMapping
  rw [List.map_map]
  have h : (Prod.fst ∘ fun n : Nat => (n, n)) = id := rfl
  rw [h, List.map_id]

theorem identity_snd (c : Nat) :
    (BuildIdentityMapping c).map Prod.snd = List.range c := by
  unfold BuildIdentityMapping
  rw [List.map_map]
  have h : (Prod.snd ∘ fun n : Nat => (n, n)) = id := rfl
  rw [h, List.map_id]

theorem identity_mem (c columnCount : Nat) (h : c < columnCount) :
    (c, c) ∈ BuildIdentityMapping columnCount := by
  unfold BuildIdentityMapping
  exact List.mem_map.mpr ⟨c, List.mem_range.mpr h, rfl⟩

theorem getD_replicate (n c : Nat) (a : Nat) : (List.replicate n a).getD c a = a := by
  induction n generalizing c with
  | zero => cases c <;> rfl
  | succ k ih =>
    cases c with
    | zero => rfl
    | succ c2 =>
      rw [List.replicate_succ, List.getD_cons_succ]
      exact ih c2

theorem getD_range (n c : Nat) (h : c < n) : (List.range n).getD c 0 = c := by
  rw [List.getD_eq_getElem?_getD, List.getElem?_range h]
  rfl

/-- The wrapped logical tile reads straight through to the wrapped physical
tile at identity columns. -/
theorem wrapTiles_getValue (t : Tile) (own : Bool) (i c : Nat) (hc : c < t.cols) :
    (WrapTiles t own).GetValue i c = t.getValue i c := by
  unfold WrapTiles LogicalTile.GetValue LogicalTile.GetBaseTileId LogicalTile.GetOriginColumnId
  simp only
  rw [getD_replicate, getD_range t.cols c hc]
  rfl

/-- Identity-path characterization of Physify, shared by the claim about
implicit identity materialization. -/
theorem physify_identity_core (src : LogicalTile) (node : Option MaterializationNode)
    (hres : resolveMapping node src =
      (src.schema.NumCols, BuildIdentityMapping src.schema.NumCols)) :
    (Physify node src).ownBaseTile = true ∧
    (Physify node src).selectedRows = List.range src.GetTupleCount ∧
    (Physify node src).GetTupleCount = src.GetTupleCount ∧
    (∀ i, i < src.GetTupleCount → ∀ c, c < src.schema.NumCols →
      (Physify node src).GetValue i c = src.GetValue (src.selectedRows.getD i 0) c) := by
  have hphys : Physify node src =
      WrapTiles (MaterializeByTiles src (BuildIdentityMapping src.schema.NumCols)
        (GenerateTileToColMap (BuildIdentityMapping src.schema.NumCols) src)
        (GetTempTile src.schema.NumCols src.GetTupleCount)) true := by
    unfold Physify
    rw [hres]
  set dest := MaterializeByTiles src (BuildIdentityMapping src.schema.NumCols)
    (GenerateTileToColMap (BuildIdentityMapping src.schema.NumCols) src)
    (GetTempTile src.schema.NumCols src.GetTupleCount) with hdest
  have hshape := materializeByTiles_shape src (BuildIdentityMapping src.schema.NumCols)
    (GenerateTileToColMap (BuildIdentityMapping src.schema.NumCols) src)
    (GetTempTile src.schema.NumCols src.GetTupleCount)
  have hrows : dest.rows = src.GetTupleCount := hshape.1
  have hcols : dest.cols = src.schema.NumCols := hshape.2
  refine ⟨by rw [hphys]; rfl, ?selrows, ?tcount, ?cells⟩
  case selrows =>
    rw [hphys]
    show List.range dest.rows = List.range src.GetTupleCount
    rw [hrows]
  case tcount =>
    rw [hphys]
    show (List.range dest.rows).length = src.GetTupleCount
    rw [List.length_range, hrows]
  case cells =>
    intro i hi c hc
    rw [hphys, wrapTiles_getValue dest true i c (by rw [hcols]; exact hc)]
    rw [hdest, materializeByTiles_getValue]
    have hk : ((BuildIdentityMapping src.schema.NumCols).map Prod.fst).Nodup := by
      rw [identity_fst]
      exact List.nodup_range _
    have hv : ((BuildIdentityMapping src.schema.NumCols).map Prod.snd).Nodup := by
      rw [identity_snd]
      exact List.nodup_range _
    have hmem : (c, c) ∈ BuildIdentityMapping src.schema.NumCols := identity_mem c _ hc
    have hseq : c ∈ bucketOlds
        (GenerateTileToColMap (BuildIdentityMapping src.schema.NumCols) src) := by
      refine (bucketOlds_gen (BuildIdentityMapping src.schema.NumCols) src).mem_iff.mpr ?hin
      rw [identity_fst]
      exact List.mem_range.mpr hc
    rw [lastWriterOf_eq_some _ _ c c hk hv hmem hseq]
    simp [hi]

/-- C1: for every LogicalTile physicalized with an implicit identity mapping
(no plan node, or a node carrying no explicit schema), Physify returns a
fresh tile-owning LogicalTile whose (row, col) values equal the source's
for every selected row and every column, with output rows renumbered
densely from 0 in source-iteration order (the value at output row i comes
from the i-th selected slot, independent of original slot numbers). -/
theorem identity_materialization (src : LogicalTile) (node : Option MaterializationNode)
    (hnode : node = none ∨ ∃ nd, node = some nd ∧ nd.outputSchemaCols = none) :
    (Physify node src).ownBaseTile = true ∧
    (Physify node src).selectedRows = List.range src.GetTupleCount ∧
    (Physify node src).GetTupleCount = src.GetTupleCount ∧
    (∀ i, i < src.GetTupleCount → ∀ c, c < src.schema.NumCols →
      (Physify node src).GetValue i c = src.GetValue (src.selectedRows.getD i 0) c) := by
  apply physify_identity_core
  rcases hnode with hn | ⟨nd, hn, hsch⟩
  · rw [hn]
    rfl
  · rw [hn]
    simp [resolveMapping, hsch, LogicalTile.physicalColumnCount]

/-- C2: DExecute returns false (none) without producing an output tile in
exactly two situations, child stream exhaustion and a pulled tile with zero
selected rows; in every other case it returns true holding exactly one
output LogicalTile. -/
theorem dexecute_contract (node : Option MaterializationNode) (child : ChildResult) :
    (DExecute node child = none ↔
      child = ChildResult.exhausted ∨
        ∃ src, child = ChildResult.tile src ∧ src.GetTupleCount = 0) ∧
    (∀ src, child = ChildResult.tile src → src.GetTupleCount ≠ 0 →
      ∃ out, DExecute node child = some out) := by
  cases child with
  | exhausted =>
    constructor
    · simp [DExecute]
    · intro src h
      cases h
  | tile src =>
    by_cases h0 : src.GetTupleCount = 0
    · constructor
      · simp only [DExecute, if_pos h0]
        constructor
        · intro _
          exact Or.inr ⟨src, rfl, h0⟩
        · intro _
          trivial
      · intro src2 heq hne
        injection heq with h2
        subst h2
        exact absurd h0 hne
    · constructor
      · simp only [DExecute, if_neg h0]
        constructor
        · intro hc
          by_cases hf : getPhysifyFlag node = true
          · rw [if_pos hf] at hc
            cases hc
          · rw [if_neg hf] at hc
            cases hc
        · intro hc
          rcases hc with hc | ⟨src2, heq, hz⟩
          · cases hc
          · injection heq with h2
            subst h2
            exact absurd hz h0
      · intro src2 heq hne
        simp only [DExecute, if_neg h0]
        by_cases hf : getPhysifyFlag node = true
        · rw [if_pos hf]
          exact ⟨Physify node src, rfl⟩
        · rw [if_neg hf]
          exact ⟨src, rfl⟩

/-- Concrete physical tile used by the executor witnesses. -/
def tileW : Tile :=
  { rows := 1, cols := 2, data := fun i j => ⟨false, Int.ofNat (10 * i + j + 7)⟩ }

/-- Concrete one-row, two-column logical tile over tileW. -/
def srcW : LogicalTile :=
  { tileStore := [tileW]
  , schema := { baseTiles := [0, 0], originColumns := [0, 1], validBits := [true, true] }
  , selectedRows := [0]
  , ownBaseTile := false }

theorem dexecute_contract_witness :
    ∃ out, DExecute none (ChildResult.tile srcW) = some out :=
  (dexecute_contract none (ChildResult.tile srcW)).2 srcW rfl (by decide)

theorem identity_materialization_witness :
    (Physify none srcW).ownBaseTile = true ∧
    (Physify none srcW).GetValue 0 1 = srcW.GetValue (srcW.selectedRows.getD 0 0) 1 :=
  ⟨(identity_materialization srcW none (Or.inl rfl)).1,
   (identity_materialization srcW none (Or.inl rfl)).2.2.2 0 (by decide) 1 (by decide)⟩

/-- The last writer of each output column does not depend on the processing
order, provided the mapping has duplicate-free keys and values and the
sequence enumerates exactly the mapping's keys. -/
theorem lastWriter_order_indep (m : List (Nat × Nat)) (seq1 seq2 : List Nat) (j : Nat)
    (hk : (m.map Prod.fst).Nodup) (hv : (m.map Prod.snd).Nodup)
    (e1 : seq1.Perm (m.map Prod.fst)) (e2 : seq2.Perm (m.map Prod.fst)) :
    lastWriterOf seq1 m j = lastWriterOf seq2 m j := by
  cases hw1 : lastWriterOf seq1 m j with
  | some o =>
    have hl := lastWriterOf_lookup seq1 m j o hw1
    have hmem := mapLookup_mem m o j hl
    have ho2 : o ∈ seq2 :=
      e2.mem_iff.mpr (List.mem_map.mpr ⟨(o, j), hmem, rfl⟩)
    rw [lastWriterOf_eq_some seq2 m o j hk hv hmem ho2]
  | none =>
    cases hw2 : lastWriterOf seq2 m j with
    | none => rfl
    | some o =>
      have hl := lastWriterOf_lookup seq2 m j o hw2
      have hmem := mapLookup_mem m o j hl
      have ho1 : o ∈ seq1 :=
        e1.mem_iff.mpr (List.mem_map.mpr ⟨(o, j), hmem, rfl⟩)
      rw [lastWriterOf_eq_some seq1 m o j hk hv hmem ho1] at hw1
      cases hw1

/-- C3 (amended): for a supplied old-to-new mapping that maps no two old
columns onto the same new column, the output tile's mapped column equals
the source's old column for all selected rows, and output columns onto
which nothing is mapped keep the destination tile's prior (default)
content, so unmapped source columns do not appear in the output; the
mapping may reorder or drop source columns. -/
theorem projection_correct (src : LogicalTile) (m : List (Nat × Nat))
    (bs : List (Nat × List Nat)) (d : Tile)
    (hk : (m.map Prod.fst).Nodup) (hv : (m.map Prod.snd).Nodup)
    (hperm : (bucketOlds bs).Perm (m.map Prod.fst)) :
    (∀ old new, (old, new) ∈ m → ∀ i, i < src.GetTupleCount →
      (MaterializeByTiles src m bs d).getValue i new =
        src.GetValue (src.selectedRows.getD i 0) old) ∧
    (∀ j, (∀ p ∈ m, p.2 ≠ j) → ∀ i,
      (MaterializeByTiles src m bs d).getValue i j = d.getValue i j) := by
  constructor
  · intro old new hmem i hi
    have hseq : old ∈ bucketOlds bs :=
      hperm.mem_iff.mpr (List.mem_map.mpr ⟨(old, new), hmem, rfl⟩)
    rw [materializeByTiles_getValue,
      lastWriterOf_eq_some (bucketOlds bs) m old new hk hv hmem hseq]
    simp [hi]
  · intro j hno i
    rw [materializeByTiles_getValue, lastWriterOf_eq_none (bucketOlds bs) m j hno]

/-- Reordering mapping used by the projection witness: output column 0 is
source column 1 and output column 1 is source column 0. -/
def mW3 : List (Nat × Nat) := [(0, 1), (1, 0)]

theorem projection_correct_witness :
    (MaterializeByTiles srcW mW3 (GenerateTileToColMap mW3 srcW)
        (GetTempTile 2 srcW.GetTupleCount)).getValue 0 1 =
      srcW.GetValue (srcW.selectedRows.getD 0 0) 0 :=
  (projection_correct srcW mW3 (GenerateTileToColMap mW3 srcW)
    (GetTempTile 2 srcW.GetTupleCount) (by decide) (by decide)
    (bucketOlds_gen mW3 srcW)).1 0 1 (by decide) 0 (by decide)

/-- Non-injective mapping sending both source columns onto output column 0. -/
def mC3 : List (Nat × Nat) := [(0, 0), (1, 0)]

/-- C3 counterexample: with the mapping \x7b0 -> 0, 1 -> 0\x7d (legal in the
code, which never checks that new columns are distinct), output column 0
cannot equal both mapped source columns, so the claim fails as stated for
an arbitrary supplied mapping. -/
theorem projection_claim_cex :
    ¬ ((MaterializeByTiles srcW mC3 (GenerateTileToColMap mC3 srcW)
          (GetTempTile 1 srcW.GetTupleCount)).getValue 0 0 =
        srcW.GetValue (srcW.selectedRows.getD 0 0) 0 ∧
      (MaterializeByTiles srcW mC3 (GenerateTileToColMap mC3 srcW)
          (GetTempTile 1 srcW.GetTupleCount)).getValue 0 0 =
        srcW.GetValue (srcW.selectedRows.getD 0 0) 1) := by
  decide

/-- C4 (amended): for a LogicalTile whose columns originate from at least
two distinct physical tiles, and an old-to-new mapping that maps no two old
columns onto the same new column, the materialized output tile is identical
for any two processing orders of the per-base-tile buckets and of the
columns inside each bucket; the output layout is fixed solely by the
mapping. -/
theorem bucket_order_independence (src : LogicalTile) (m : List (Nat × Nat))
    (bs1 bs2 : List (Nat × List Nat)) (d : Tile)
    (_hmulti : ∃ c1 c2, c1 < src.schema.NumCols ∧ c2 < src.schema.NumCols ∧
      src.GetBaseTileId c1 ≠ src.GetBaseTileId c2)
    (hk : (m.map Prod.fst).Nodup) (hv : (m.map Prod.snd).Nodup)
    (h1 : (bucketOlds bs1).Perm (m.map Prod.fst))
    (h2 : (bucketOlds bs2).Perm (m.map Prod.fst)) :
    MaterializeByTiles src m bs1 d = MaterializeByTiles src m bs2 d := by
  have hs1 := materializeByTiles_shape src m bs1 d
  have hs2 := materializeByTiles_shape src m bs2 d
  apply Tile.ext
  · rw [hs1.1, hs2.1]
  · rw [hs1.2, hs2.2]
  · funext i j
    have hcell : (MaterializeByTiles src m bs1 d).getValue i j =
        (MaterializeByTiles src m bs2 d).getValue i j := by
      rw [materializeByTiles_getValue, materializeByTiles_getValue,
        lastWriter_order_indep m (bucketOlds bs1) (bucketOlds bs2) j hk hv h1 h2]
    exact hcell

/-- Second physical tile used by the multi-tile fixtures. -/
def tileW2 : Tile :=
  { rows := 1, cols := 1, data := fun i j => ⟨false, Int.ofNat (100 + 10 * i + j)⟩ }

/-- One-row logical tile whose two columns originate from two distinct
physical tiles. -/
def srcW4 : LogicalTile :=
  { tileStore := [tileW, tileW2]
  , schema := { baseTiles := [0, 1], originColumns := [0, 0], validBits := [true, true] }
  , selectedRows := [0]
  , ownBaseTile := false }

/-- The two per-base-tile buckets of mW3 over srcW4, in one order. -/
def bsA4 : List (Nat × List Nat) := [(0, [0]), (1, [1])]

/-- The two per-base-tile buckets of mW3 over srcW4, in the other order. -/
def bsB4 : List (Nat × List Nat) := [(1, [1]), (0, [0])]

theorem bucket_order_independence_witness :
    MaterializeByTiles srcW4 mW3 bsA4 (GetTempTile 2 srcW4.GetTupleCount) =
      MaterializeByTiles srcW4 mW3 bsB4 (GetTempTile 2 srcW4.GetTupleCount) :=
  bucket_order_independence srcW4 mW3 bsA4 bsB4 (GetTempTile 2 srcW4.GetTupleCount)
    ⟨0, 1, by decide, by decide, by decide⟩ (by decide) (by decide)
    (by decide) (by decide)

/-- C4 counterexample: with the non-injective mapping \x7b0 -> 0, 1 -> 0\x7d over
a logical tile whose two columns come from two distinct base tiles, the two
bucket processing orders produce different values in output cell (0, 0),
so the claim fails as stated for an arbitrary old-to-new mapping. -/
theorem bucket_order_claim_cex :
    (bucketOlds bsA4).Perm (mC3.map Prod.fst) ∧
    (bucketOlds bsB4).Perm (mC3.map Prod.fst) ∧
    srcW4.GetBaseTileId 0 ≠ srcW4.GetBaseTileId 1 ∧
    (MaterializeByTiles srcW4 mC3 bsA4 (GetTempTile 1 srcW4.GetTupleCount)).getValue 0 0 ≠
      (MaterializeByTiles srcW4 mC3 bsB4 (GetTempTile 1 srcW4.GetTupleCount)).getValue 0 0 := by
  refine ⟨by decide, by decide, by decide, by decide⟩

/-- C8 counterexample: with zero children, DInit does not return false; the
assertion children_.size() == 1 fails (modelled as none), so no boolean is
returned at all. -/
theorem dinit_claim_cex : ¬ (DInit 0 = some false) := by decide

/-- C8 (amended): DInit returns true exactly when the executor has one
child; with any other child count the assertion fails (no boolean is
returned), rather than false being returned. -/
theorem dinit_assert (n : Nat) :
    (DInit n = some true ↔ n = 1) ∧ (DInit n = none ↔ n ≠ 1) := by
  unfold DInit
  by_cases h : n = 1 <;> simp [h]

theorem dinit_assert_witness : DInit 0 = none :=
  (dinit_assert 0).2.mpr (by decide)

/-- C9: in MaterializeByTiles over a destination allocated with capacity
equal to the source's GetTupleCount, any destination cell that changes lies
at a row index below the allocated capacity (the copy loop writes rows
0..n-1 only), and for every output column onto which a processed old column
maps, every row 0..n-1 of that column is written with a source value. -/
theorem materialize_row_range (src : LogicalTile) (m : List (Nat × Nat))
    (bs : List (Nat × List Nat)) (outCols : Nat) (d : Tile)
    (hd : d = GetTempTile outCols src.GetTupleCount) :
    (∀ i j, (MaterializeByTiles src m bs d).getValue i j ≠ d.getValue i j → i < d.rows) ∧
    (∀ j old, old ∈ bucketOlds bs → mapLookup m old = some j →
      ∀ i, i < src.GetTupleCount →
        ∃ old2, mapLookup m old2 = some j ∧
          (MaterializeByTiles src m bs d).getValue i j =
            src.GetValue (src.selectedRows.getD i 0) old2) := by
  constructor
  · intro i j hne
    rw [materializeByTiles_getValue] at hne
    cases hw : lastWriterOf (bucketOlds bs) m j with
    | none =>
      rw [hw] at hne
      exact absurd rfl hne
    | some old =>
      rw [hw] at hne
      by_cases hi : i < src.GetTupleCount
      · rw [hd]
        exact hi
      · simp [hi] at hne
  · intro j old hseq hl i hi
    obtain ⟨o, ho⟩ := lastWriterOf_isSome (bucketOlds bs) m old j hseq hl
    refine ⟨o, lastWriterOf_lookup (bucketOlds bs) m j o ho, ?cell⟩
    rw [materializeByTiles_getValue, ho]
    simp [hi]

theorem materialize_row_range_witness :
    0 < (GetTempTile 2 srcW.GetTupleCount).rows :=
  (materialize_row_range srcW mW3 (GenerateTileToColMap mW3 srcW) 2
    (GetTempTile 2 srcW.GetTupleCount) rfl).1 0 0 (by decide)

theorem getD_set_self (l : List TileGroup) (i : Nat) (x d : TileGroup)
    (h : i < l.length) : (l.set i x).getD i d = x := by
  induction l generalizing i with
  | nil => simp at h
  | cons a rest ih =>
    cases i with
    | zero => rfl
    | succ n =>
      rw [List.set_cons_succ, List.getD_cons_succ]
      exact ih n (by simpa using h)

theorem getD_append_last (l : List TileGroup) (x d : TileGroup) :
    (l ++ [x]).getD l.length d = x := by
  induction l with
  | nil => rfl
  | cons a rest ih =>
    rw [List.cons_append, List.length_cons, List.getD_cons_succ]
    exact ih

theorem getD_mem (l : List TileGroup) (i : Nat) (d : TileGroup)
    (h : i < l.length) : l.getD i d ∈ l := by
  induction l generalizing i with
  | nil => simp at h
  | cons a rest ih =>
    cases i with
    | zero => exact List.mem_cons_self _ _
    | succ n =>
      rw [List.getD_cons_succ]
      exact List.mem_cons_of_mem _ (ih n (by simpa using h))

/-- After the conditional group append, the table holds at least one group. -/
theorem groups_after_append_ne_nil (tb : Table) :
    (if lastGroupFull tb then AddDefaultTileGroup tb else tb).tileGroups ≠ [] := by
  by_cases hf : lastGroupFull tb
  · rw [if_pos hf]
    simp [AddDefaultTileGroup]
  · rw [if_neg hf]
    intro hnil
    apply hf
    unfold lastGroupFull
    rw [hnil]
    rfl

/-- allocateSlot does not touch the index list. -/
theorem allocateSlot_indexes (tb : Table) : (allocateSlot tb).1.indexes = tb.indexes := by
  unfold allocateSlot
  by_cases hf : lastGroupFull tb
  · rw [if_pos hf]
    rfl
  · rw [if_neg hf]

/-- The allocated slot is the next slot of the group named by the returned
ItemPointer: its cursor moves to offset + 1 and its visibility stamps are
carried over unchanged. -/
theorem allocateSlot_group (tb : Table) :
    (allocateSlot tb).1.tileGroups.getD (allocateSlot tb).2.block ⟨0, []⟩ =
      ⟨(allocateSlot tb).2.offset + 1,
        ((if lastGroupFull tb then AddDefaultTileGroup tb else tb).tileGroups.getD
          ((if lastGroupFull tb then AddDefaultTileGroup tb else tb).tileGroups.length - 1)
          ⟨0, []⟩).committedSlots⟩ := by
  have hne := groups_after_append_ne_nil tb
  have hlen : (if lastGroupFull tb then AddDefaultTileGroup tb else tb).tileGroups.length - 1 <
      (if lastGroupFull tb then AddDefaultTileGroup tb else tb).tileGroups.length := by
    have hpos := List.length_pos.mpr hne
    omega
  unfold allocateSlot
  exact getD_set_self _ _ _ _ hlen

/-- The slot handed out by allocateSlot has not been committed, given the
invariant that committed slots lie below each group's cursor. -/
theorem allocateSlot_not_visible (tb : Table)
    (hvis : ∀ g ∈ tb.tileGroups, ∀ s ∈ g.committedSlots, s < g.activeTupleCount) :
    (allocateSlot tb).2.offset ∉
      ((allocateSlot tb).1.tileGroups.getD (allocateSlot tb).2.block
        ⟨0, []⟩).committedSlots := by
  rw [allocateSlot_group]
  by_cases hf : lastGroupFull tb
  · rw [if_pos hf]
    show (allocateSlot tb).2.offset ∉
      ((AddDefaultTileGroup tb).tileGroups.getD
        ((AddDefaultTileGroup tb).tileGroups.length - 1) ⟨0, []⟩).committedSlots
    have hlast : (AddDefaultTileGroup tb).tileGroups.getD
        ((AddDefaultTileGroup tb).tileGroups.length - 1) ⟨0, []⟩ = ⟨0, []⟩ := by
      show (tb.tileGroups ++ [(⟨0, []⟩ : TileGroup)]).getD
        ((tb.tileGroups ++ [(⟨0, []⟩ : TileGroup)]).length - 1) (⟨0, []⟩ : TileGroup) =
        (⟨0, []⟩ : TileGroup)
      have hl : (tb.tileGroups ++ [(⟨0, []⟩ : TileGroup)]).length - 1 =
          tb.tileGroups.length := by
        simp
      rw [hl]
      exact getD_append_last _ _ _
    rw [hlast]
    simp
  · rw [if_neg hf]
    show (allocateSlot tb).2.offset ∉
      (tb.tileGroups.getD (tb.tileGroups.length - 1) ⟨0, []⟩).committedSlots
    have hne := groups_after_append_ne_nil tb
    rw [if_neg hf] at hne
    have hpos := List.length_pos.mpr hne
    have hmem : tb.tileGroups.getD (tb.tileGroups.length - 1) ⟨0, []⟩ ∈ tb.tileGroups :=
      getD_mem _ _ _ (by omega)
    have hoff : (allocateSlot tb).2.offset =
        (tb.tileGroups.getD (tb.tileGroups.length - 1) ⟨0, []⟩).activeTupleCount := by
      unfold allocateSlot
      rw [if_neg hf]
    rw [hoff]
    intro hin
    exact absurd (hvis _ hmem _ hin) (lt_irrefl _)

/-- An index purged with removeLocation holds no entry at that location. -/
theorem removeLocation_clean (idx : Index) (loc : ItemPointer) :
    ∀ e ∈ (removeLocation idx loc).entries, e.2 ≠ loc := by
  intro e he
  unfold removeLocation at he
  simp only at he
  have h := List.mem_filter.mp he
  exact of_decide_eq_true h.2

/-- On failure, the index list produced by tryInsertLoop holds no entry at
the new location, provided the pending indexes held none to begin with. -/
theorem tryInsertLoop_rollback (t : Tuple) (loc : ItemPointer)
    (pending : List Index) :
    ∀ done idxs, tryInsertLoop t loc done pending = (false, idxs) →
      (∀ idx ∈ pending, ∀ e ∈ idx.entries, e.2 ≠ loc) →
      ∀ idx ∈ idxs, ∀ e ∈ idx.entries, e.2 ≠ loc := by
  induction pending with
  | nil =>
    intro done idxs hres hp
    unfold tryInsertLoop at hres
    injection hres with h1 h2
    cases h1
  | cons idx rest ih =>
    intro done idxs hres hp
    unfold tryInsertLoop at hres
    cases hins : indexTryInsert idx t loc with
    | some idx2 =>
      rw [hins] at hres
      exact ih (done ++ [idx2]) idxs hres
        (fun i hi => hp i (List.mem_cons_of_mem _ hi))
    | none =>
      rw [hins] at hres
      injection hres with h1 h2
      subst h2
      intro i hi e he
      rcases List.mem_append.mp hi with hmap | hrest
      · obtain ⟨d0, _, hd0⟩ := List.mem_map.mp hmap
        rw [← hd0] at he
        exact removeLocation_clean d0 loc e he
      · exact hp i hrest e he

/-- C6: if Table::InsertTuple fails on an index insert after some index
entries were already inserted for the tuple, the insert is rolled back:
no index in the resulting table holds an entry at the tuple's location
(given none did before), the allocated physical slot remains reserved
(the group cursor moved past it) but is not visible, and the failure
indicator (indexViolation) is distinct from any table-full error, which
the insert path cannot produce at all. -/
theorem index_rollback_atomic (tb : Table) (t : Tuple) (tb2 : Table)
    (hres : InsertTuple tb t = InsertResult.indexViolation tb2)
    (hfresh : ∀ idx ∈ tb.indexes, ∀ e ∈ idx.entries, e.2 ≠ (allocateSlot tb).2)
    (hvis : ∀ g ∈ tb.tileGroups, ∀ s ∈ g.committedSlots, s < g.activeTupleCount) :
    (∀ idx ∈ tb2.indexes, ∀ e ∈ idx.entries, e.2 ≠ (allocateSlot tb).2) ∧
    (tb2.tileGroups.getD (allocateSlot tb).2.block ⟨0, []⟩).activeTupleCount =
      (allocateSlot tb).2.offset + 1 ∧
    slotVisible tb2 (allocateSlot tb).2 = false := by
  unfold InsertTuple at hres
  by_cases hnull : CheckNulls tb t = false
  · rw [if_pos hnull] at hres
    cases hres
  · rw [if_neg hnull] at hres
    simp only at hres
    cases hTI : TryInsertInIndexes (allocateSlot tb).1 t (allocateSlot tb).2 with
    | mk b idxs =>
      rw [hTI] at hres
      cases b with
      | true => cases hres
      | false =>
        injection hres with h2
        subst h2
        refine ⟨?clean, ?count, ?vis⟩
        case clean =>
          intro idx hidx e he
          have hpending : ∀ idx ∈ (allocateSlot tb).1.indexes,
              ∀ e ∈ idx.entries, e.2 ≠ (allocateSlot tb).2 := by
            rw [allocateSlot_indexes]
            exact hfresh
          unfold TryInsertInIndexes at hTI
          exact tryInsertLoop_rollback t (allocateSlot tb).2
            (allocateSlot tb).1.indexes [] idxs hTI hpending idx hidx e he
        case count =>
          show ((allocateSlot tb).1.tileGroups.getD (allocateSlot tb).2.block
            ⟨0, []⟩).activeTupleCount = (allocateSlot tb).2.offset + 1
          rw [allocateSlot_group]
        case vis =>
          show slotVisible
            ⟨(allocateSlot tb).1.allowNull, (allocateSlot tb).1.tuplesPerTilegroup,
              (allocateSlot tb).1.tileGroups, idxs⟩ (allocateSlot tb).2 = false
          unfold slotVisible
          simp only
          exact decide_eq_false (allocateSlot_not_visible tb hvis)

/-- Table with one non-full group, a non-unique index and a unique index
both already holding the key of the witness tuple. -/
def tbW6 : Table :=
  ⟨[true], 2, [⟨1, []⟩],
    [⟨false, [0], [([⟨false, 5⟩], ⟨0, 0⟩)]⟩,
     ⟨true, [0], [([⟨false, 5⟩], ⟨0, 0⟩)]⟩]⟩

/-- Witness tuple whose key collides in the unique index of tbW6. -/
def tW6 : Tuple := ⟨[⟨false, 5⟩]⟩

/-- State after the failed insert: slot reserved, index entries rolled
back to exactly the original ones. -/
def tbW6res : Table :=
  ⟨[true], 2, [⟨2, []⟩],
    [⟨false, [0], [([⟨false, 5⟩], ⟨0, 0⟩)]⟩,
     ⟨true, [0], [([⟨false, 5⟩], ⟨0, 0⟩)]⟩]⟩

theorem index_rollback_atomic_witness :
    slotVisible tbW6res (allocateSlot tbW6).2 = false :=
  (index_rollback_atomic tbW6 tW6 tbW6res (by decide) (by decide) (by decide)).2.2

/-- InsertTuple reports nullViolation (with the table unchanged) exactly
when CheckNulls rejects the tuple. -/
theorem insertTuple_null_iff (tb : Table) (t : Tuple) :
    InsertTuple tb t = InsertResult.nullViolation tb ↔ CheckNulls tb t = false := by
  constructor
  · intro h
    by_contra hcc
    unfold InsertTuple at h
    rw [if_neg hcc] at h
    simp only at h
    cases hTI : TryInsertInIndexes (allocateSlot tb).1 t (allocateSlot tb).2 with
    | mk b idxs =>
      rw [hTI] at h
      cases b <;> cases h
  · intro h
    unfold InsertTuple
    rw [if_pos h]

/-- CheckNulls fails exactly when some non-nullable column holds null. -/
theorem checkNulls_false_iff (tb : Table) (t : Tuple) :
    CheckNulls tb t = false ↔
      ∃ p ∈ List.zip tb.allowNull t.values, p.1 = false ∧ p.2.isNull = true := by
  unfold CheckNulls
  constructor
  · intro h
    have hnot : ¬ ((List.zip tb.allowNull t.values).all
        (fun p => p.1 || !p.2.isNull) = true) := by
      rw [h]
      exact Bool.false_ne_true
    rw [List.all_eq_true] at hnot
    push_neg at hnot
    obtain ⟨p, hp, hfail⟩ := hnot
    refine ⟨p, hp, ?f1, ?f2⟩
    case f1 =>
      cases hb : p.1
      · rfl
      · exfalso
        apply hfail
        rw [hb]
        rfl
    case f2 =>
      cases hb : p.2.isNull
      · exfalso
        apply hfail
        rw [hb]
        simp
      · rfl
  · intro ⟨p, hp, h1, h2⟩
    cases hall : (List.zip tb.allowNull t.values).all (fun p => p.1 || !p.2.isNull)
    · rfl
    · exfalso
      rw [List.all_eq_true] at hall
      have := hall p hp
      rw [h1, h2] at this
      cases this

/-- C7: Table::InsertTuple rejects a tuple as a null-constraint violation
(returning nullViolation with the table unchanged, so before any slot is
allocated, and surfaced to the caller rather than swallowed) if and only if
some non-nullable column of the tuple holds a null value. -/
theorem null_check_first (tb : Table) (t : Tuple) :
    InsertTuple tb t = InsertResult.nullViolation tb ↔
      ∃ p ∈ List.zip tb.allowNull t.values, p.1 = false ∧ p.2.isNull = true :=
  (insertTuple_null_iff tb t).trans (checkNulls_false_iff tb t)

/-- Single-column, non-nullable table used by the null-check witness. -/
def tbW7 : Table := ⟨[false], 5, [], []⟩

/-- Witness tuple holding a null in the non-nullable column. -/
def tW7 : Tuple := ⟨[⟨true, 0⟩]⟩

theorem null_check_first_witness :
    InsertTuple tbW7 tW7 = InsertResult.nullViolation tbW7 :=
  (null_check_first tbW7 tW7).mpr ⟨(false, ⟨true, 0⟩), by decide, rfl, rfl⟩

/-- C10: GetTileGroup has the precondition tile_group_id < NumTileGroups();
under it, the group at that position of the append-only list is returned;
an out-of-range id only trips the assertion (modelled as none), no error
value is returned. -/
theorem tile_group_lookup (tb : Table) (i : Nat) :
    (i < NumTileGroups tb → GetTileGroup tb i = some (tb.tileGroups.getD i ⟨0, []⟩)) ∧
    (¬ i < NumTileGroups tb → GetTileGroup tb i = none) := by
  unfold GetTileGroup NumTileGroups
  constructor
  · intro h
    rw [if_pos h]
  · intro h
    rw [if_neg h]

/-- Table with a single committed-slot group, for the lookup witness. -/
def tbW10 : Table := ⟨[], 5, [⟨2, [0]⟩], []⟩

theorem tile_group_lookup_witness :
    GetTileGroup tbW10 0 = some ⟨2, [0]⟩ ∧ GetTileGroup tbW10 3 = none :=
  ⟨(tile_group_lookup tbW10 0).1 (by decide), (tile_group_lookup tbW10 3).2 (by decide)⟩

/-- Driver for the sequential-insert scenario: insert count tuples
sampleTuple s, sampleTuple (s + 1), ..., stopping with none as soon as any
insert reports a failure. -/
def insertFrom (tb : Table) : Nat → Nat → Option Table
  | _, 0 => some tb
  | s, c + 1 =>
    match InsertTuple tb (sampleTuple s) with
    | .ok _ tb2 => insertFrom tb2 (s + 1) c
    | .nullViolation _ => none
    | .indexViolation _ => none

set_option maxRecDepth 4000

/-- C5: sequentially inserting 2500 tuples into a table with tile-group
capacity 1000 succeeds for every tuple (a full group is handled by
transparently appending a new group; no insert returns a failure, and the
result type has no table-full failure at all), yielding NumTileGroups = 3
with groups holding 1000, 1000 and 500 tuples. -/
theorem sequential_insert_scenario :
    (insertFrom scenarioTable 0 2500).map
      (fun tb => (NumTileGroups tb, tb.tileGroups.map (fun g => g.activeTupleCount))) =
      some (3, [1000, 1000, 500]) := by decide

end Peloton
